import Mathlib

/-!
Verification development for the factory-thing production-chain engine.

The Rust source (`src/main.rs`, `src/factory.rs`) is embedded shallowly:

* `Product`, `RecipePart`, `Recipe`, `Buffer`, `Stream`, `Factory` mirror the
  Rust data model.  The shared-mutable `Rc<RefCell<Stream>>` graph is
  rendered as an arena: `Factory.streams` is a list and every stream-to-stream
  reference is an index into it.
* `f64` arithmetic is modelled by exact rationals (`ℚ`), extended with the
  IEEE special values `inf`/`nan` (type `F64`) exactly where the code can
  divide by a zero rate.  `f64::EPSILON` is the exact rational `2 ^ (-52)`.
* recursive graph walks (`efficiency`, `solve`) receive an explicit fuel
  parameter; the Rust code recurses unboundedly and only terminates on
  acyclic graphs, which the spec declares a caller obligation.

`rate.rs` (the `Rate` type), `Buffer`/`fill_from`, `Stream::try_produce` and
`Recipe::required_of` are part of this repository but absent from the given
sources; their definitions below are modelled from the spec and say so in
their doc comments.
-/

namespace Fac

/-- `DEFAULT_BUF_MULT` from factory.rs. -/
def DEFAULT_BUF_MULT : ℕ := 8

/-- A product: `{id: usize, module: usize}` from main.rs. -/
structure Product where
  id : ℕ
  module : ℕ
deriving DecidableEq, Repr

/-- Modelled from the spec: rate.rs is absent from the sources.  Per spec §3 a
`Rate` is `{amount, ticks}` meaning `amount` units per `ticks` ticks.  The
fields are rationals so that multiplication by an efficiency stays closed;
integer-valued amounts are an invariant of well-formed data, not of the type. -/
structure Rate where
  amount : ℚ
  ticks : ℚ
deriving DecidableEq, Repr

/-- Modelled from the spec: the additive identity `Rate::ZERO`. -/
def Rate.ZERO : Rate := ⟨0, 1⟩

/-- The realized throughput `amount / ticks` of a rate; spec §4.1 says
comparison and division act on this value. -/
def Rate.val (r : Rate) : ℚ := r.amount / r.ticks

/-- Modelled from the spec: rate addition converts to a common tick base and
sums the amounts. -/
def Rate.add (r s : Rate) : Rate := ⟨r.amount * s.ticks + s.amount * r.ticks, r.ticks * s.ticks⟩

/-- Modelled from the spec: scalar multiplication by an integer multiplier. -/
def Rate.nsmul (r : Rate) (n : ℕ) : Rate := ⟨r.amount * n, r.ticks⟩

/-- Modelled from the spec: multiplication of a rate by a real efficiency
factor. -/
def Rate.escale (r : Rate) (e : ℚ) : Rate := ⟨r.amount * e, r.ticks⟩

/-- A recipe slot: `{product, amount}` from main.rs. -/
structure RecipePart where
  product : Product
  amount : ℕ
deriving DecidableEq, Repr

/-- A recipe: base rate plus input and output parts, from main.rs. -/
structure Recipe where
  rate : Rate
  inputs : List RecipePart
  outputs : List RecipePart
deriving DecidableEq, Repr

/-- `Recipe::optimal_inflow_of` from main.rs: fold of `rate * part.amount`
over the input parts matching `product`, starting from `Rate::ZERO`. -/
def Recipe.optimal_inflow_of (r : Recipe) (p : Product) : Rate :=
  (r.inputs.filterMap (fun part => if part.product = p then some (r.rate.nsmul part.amount) else none)).foldl Rate.add Rate.ZERO

/-- `Recipe::optimal_outflow_of` from main.rs, over the output parts. -/
def Recipe.optimal_outflow_of (r : Recipe) (p : Product) : Rate :=
  (r.outputs.filterMap (fun part => if part.product = p then some (r.rate.nsmul part.amount) else none)).foldl Rate.add Rate.ZERO

/-- The `Option`-returning inflow accessor that `Factory::solve` pattern
matches on (`if let Some(optimal) = ... optimal_inflow_of(product)`): absent
when no input part matches the product. -/
def Recipe.optimal_inflow_opt (r : Recipe) (p : Product) : Option Rate :=
  let l := r.inputs.filterMap (fun part => if part.product = p then some (r.rate.nsmul part.amount) else none)
  if l = [] then none else some (l.foldl Rate.add Rate.ZERO)

/-- The `Option`-returning outflow accessor matched on by `Factory::solve`. -/
def Recipe.optimal_outflow_opt (r : Recipe) (p : Product) : Option Rate :=
  let l := r.outputs.filterMap (fun part => if part.product = p then some (r.rate.nsmul part.amount) else none)
  if l = [] then none else some (l.foldl Rate.add Rate.ZERO)

/-- Modelled from the spec: `Recipe::required_of` (absent from the sources) is
the per-cycle input need of a product, used to size lazily created input
buffers; absent when the product is not an input. -/
def Recipe.required_of (r : Recipe) (p : Product) : Option ℕ :=
  let l := r.inputs.filterMap (fun part => if part.product = p then some part.amount else none)
  if l = [] then none else some (l.foldl (· + ·) 0)

/-- Modelled from the spec: the `Buffer` type (absent from the sources), a
bounded counter `current ≤ max` of stored units. -/
structure Buffer where
  current : ℕ
  max : ℕ
deriving DecidableEq, Repr

/-- A stream, from main.rs/factory.rs: parallelism multiplier, recipe,
upstream wiring (one `(product, arena index)` pair per recipe input slot),
owned buffers, the persisted tick countdown `next`, and the cached period. -/
structure Stream where
  mult : ℕ
  recipe : Recipe
  inputs : List (Product × ℕ)
  buffers : List (Product × Buffer)
  next : Option ℕ
  ticks : ℕ
deriving DecidableEq, Repr

/-- The junk stream an out-of-range arena read returns; its recipe satisfies
the data-model invariants so well-formedness is insensitive to junk reads. -/
def defaultStream : Stream :=
  { mult := 1, recipe := ⟨⟨1, 1⟩, [], []⟩, inputs := [], buffers := [], next := none, ticks := 1 }

instance : Inhabited Stream := ⟨defaultStream⟩

/-- The stream arena standing in for `Factory.streams`. -/
structure Factory where
  streams : List Stream
deriving DecidableEq, Repr

def Factory.get (fa : Factory) (i : ℕ) : Stream := fa.streams.getD i default

def Factory.set (fa : Factory) (i : ℕ) (s : Stream) : Factory := ⟨fa.streams.set i s⟩

/-- Association-list lookup for buffer maps (`HashMap::get`). -/
def lookupB : List (Product × Buffer) → Product → Option Buffer
  | [], _ => none
  | (q, b) :: t, p => if q = p then some b else lookupB t p

/-- Association-list insert-or-replace (`HashMap::insert`). -/
def insertB : List (Product × Buffer) → Product → Buffer → List (Product × Buffer)
  | [], p, b => [(p, b)]
  | (q, c) :: t, p, b => if q = p then (p, b) :: t else (q, c) :: insertB t p b

/-- Association-list in-place update of an existing entry (`HashMap::get_mut`);
does nothing when the key is absent. -/
def modifyB : List (Product × Buffer) → Product → (Buffer → Buffer) → List (Product × Buffer)
  | [], _, _ => []
  | (q, c) :: t, p, f => if q = p then (q, f c) :: t else (q, c) :: modifyB t p f

/-- An `f64` as it appears in the efficiency computation: an exact rational,
positive infinity, or NaN.  The special values arise only from dividing by a
zero optimal demand. -/
inductive F64 where
  | fin (q : ℚ)
  | inf
  | nan
deriving DecidableEq, Repr

/-- IEEE division of the nonnegative realized rate by the optimal demand:
`0/0` is NaN and `q/0` is `+∞` for `q ≠ 0` (negative dividends do not occur
for well-formed data, so the sign of the infinity is immaterial). -/
def fdiv (a b : ℚ) : F64 :=
  if b = 0 then (if a = 0 then F64.nan else F64.inf) else F64.fin (a / b)

/-- `f64::min`: returns the other operand when one is NaN. -/
def fmin : F64 → F64 → F64
  | F64.nan, y => y
  | x, F64.nan => x
  | F64.inf, y => y
  | x, F64.inf => x
  | F64.fin a, F64.fin b => F64.fin (min a b)

/-- The trailing `.min(1.0)` of `Stream::efficiency`, landing back in ℚ. -/
def capOne : F64 → ℚ
  | F64.fin q => min q 1
  | F64.inf => 1
  | F64.nan => 1

/-- The `.reduce(Efficiency::min).unwrap_or(0.0).min(1.0)` tail of
`Stream::efficiency` applied to the component list. -/
def reduceEff : List F64 → ℚ
  | [] => 0
  | c :: cs => capOne (cs.foldl fmin c)

/-- `Stream::rate_of`, parameterized by the efficiency computation so the fuel
recursion stays structural: `Some(outflow * eff * mult)` when the recipe's
optimal outflow differs from `Rate::ZERO`, else `None`. -/
def rate_of_aux (eff : Factory → ℕ → ℚ) (fa : Factory) (j : ℕ) (p : Product) : Option Rate :=
  let s := fa.get j
  let outflow := s.recipe.optimal_outflow_of p
  if outflow = Rate.ZERO then none
  else some ((outflow.escale (eff fa j)).nsmul s.mult)

/-- `InputStreams::rate_of`: sum (fold from `Rate::ZERO`) of the upstream
streams' realized rates for `p`, skipping non-producers. -/
def inputs_rate_of_aux (eff : Factory → ℕ → ℚ) (fa : Factory) (inps : List (Product × ℕ)) (p : Product) : Rate :=
  (inps.filterMap (fun pr => rate_of_aux eff fa pr.2 p)).foldl Rate.add Rate.ZERO

/-- `Stream::efficiency` with explicit recursion fuel: `1.0` for a stream with
no inputs, otherwise the `f64` minimum over the per-input components
`supplied / (optimal_inflow * mult)` of the recipe's input parts, then
`.unwrap_or(0.0).min(1.0)`. -/
def efficiency : ℕ → Factory → ℕ → ℚ
  | 0, _, _ => 1
  | f + 1, fa, i =>
    let s := fa.get i
    if s.inputs = [] then 1
    else
      reduceEff (s.recipe.inputs.map (fun ingr =>
        fdiv (inputs_rate_of_aux (efficiency f) fa s.inputs ingr.product).val
          ((s.recipe.optimal_inflow_of ingr.product).nsmul s.mult).val))

/-- `Stream::rate_of` at a given fuel. -/
def rate_of (fuel : ℕ) (fa : Factory) (j : ℕ) (p : Product) : Option Rate :=
  rate_of_aux (efficiency fuel) fa j p

/-- `InputStreams::rate_of` at a given fuel. -/
def inputs_rate_of (fuel : ℕ) (fa : Factory) (inps : List (Product × ℕ)) (p : Product) : Rate :=
  inputs_rate_of_aux (efficiency fuel) fa inps p

/-- `f64::EPSILON`, exactly. -/
def epsF : ℚ := 1 / 2 ^ 52

/-- The `as usize` cast of a nonnegative `f64` ceiling (saturating at 0 for
negative values, as the Rust cast does). -/
def natCeil (q : ℚ) : ℕ := (Int.ceil q).toNat

/-- The body of the change-application loop in `Factory::solve`: scale every
buffer's `max` by the integer quotient `new_mult / old_mult` (a `usize`
division in the source), then set `mult := new_mult`. -/
def applyChange (fa : Factory) (u m : ℕ) : Factory :=
  let s := fa.get u
  let mm := m / s.mult
  fa.set u { s with
    buffers := s.buffers.map (fun pb => (pb.1, { pb.2 with max := pb.2.max * mm })),
    mult := m }

/-- The change-recording half of one balance-scan iteration: when the
upstream stream's theoretical capacity for the product falls short of the
demand `optimal`, append the pending change
`ceil(mult / efficiency - EPSILON)`. -/
def scanPush (fa : Factory) (u : ℕ) (p : Product) (optimal : Rate) (chs : List (ℕ × ℕ)) :
    List (ℕ × ℕ) :=
  match (fa.get u).recipe.optimal_outflow_opt p with
  | none => chs
  | some r =>
    if (r.nsmul (fa.get u).mult).val < optimal.val then
      chs ++ [(u, natCeil (((fa.get u).mult : ℚ) *
        (1 / ((r.nsmul (fa.get u).mult).val / optimal.val)) - epsF))]
    else chs

/-- The recursion half of one balance-scan iteration: when the upstream
stream's realized rate falls short of the demand, recurse (`rec`) into it. -/
def scanRec (rec : Factory → ℕ → Factory) (rateF : Factory → ℕ → Product → Option Rate)
    (fa : Factory) (u : ℕ) (p : Product) (optimal : Rate) : Factory :=
  match rateF fa u p with
  | some r2 => if r2.val < optimal.val then rec fa u else fa
  | none => fa

/-- One iteration of the balance scan in `Factory::solve`, for the target
stream `i` and one `(input slot, recipe ingredient)` pair.  It may record a
pending multiplier change for the upstream stream and may recurse into it
when its realized rate falls short of the demand; both read the pre-iteration
state, as the Rust loop body does. -/
def scanStep (rec : Factory → ℕ → Factory) (rateF : Factory → ℕ → Product → Option Rate)
    (i : ℕ) (st : Factory × List (ℕ × ℕ)) (pair : (Product × ℕ) × RecipePart) :
    Factory × List (ℕ × ℕ) :=
  match (st.1.get i).recipe.optimal_inflow_opt pair.2.product with
  | none => st
  | some opt =>
    (scanRec rec rateF st.1 pair.1.2 pair.2.product (opt.nsmul (st.1.get i).mult),
     scanPush st.1 pair.1.2 pair.2.product (opt.nsmul (st.1.get i).mult) st.2)

/-- One iteration of the change-application loop: apply the recorded change,
then recurse into the changed stream. -/
def applyStep (rec : Factory → ℕ → Factory) (fa : Factory) (ch : ℕ × ℕ) : Factory :=
  rec (applyChange fa ch.1 ch.2) ch.1

/-- The change-application loop of `Factory::solve`, run on the state and
pending-change list the balance scan produced. -/
def solveApply (rec : Factory → ℕ → Factory) (st : Factory × List (ℕ × ℕ)) : Factory :=
  st.2.foldl (applyStep rec) st.1

/-- `Factory::solve` with explicit recursion fuel.  When the target's
efficiency is below `1.0`, scan every input slot against every recipe
ingredient (the nested loops of the source), recording pending multiplier
changes and recursing into supply-limited inputs, then apply the pending
changes in order, recursing after each. -/
def solve : ℕ → Factory → ℕ → Factory
  | 0, fa, _ => fa
  | f + 1, fa, i =>
    if efficiency (f + 1) fa i < 1 then
      solveApply (solve f)
        (((fa.get i).inputs.flatMap (fun inp =>
            (fa.get i).recipe.inputs.map (fun ingr => (inp, ingr)))).foldl
          (scanStep (solve f) (rate_of (f + 1)) i) (fa, []))
    else fa

/-- The cycle-counting loop of `Factory::tick`, with an explicit iteration
bound (`fuel`); `fuel = ticks` suffices whenever `reset` and `next` are
positive, which is the only case where the Rust loop terminates.  Returns the
elapsed cycle count and the persisted countdown. -/
def tickLoop : ℕ → ℕ → ℕ → ℕ → ℕ × ℕ
  | 0, _, _, next => (0, next)
  | fuel + 1, reset, ticks, next =>
    if ticks = 0 then (0, next)
    else if reset < ticks then
      let r := tickLoop fuel reset (ticks % reset) next
      (ticks / reset + r.1, r.2)
    else if next ≤ ticks then
      let r := tickLoop fuel reset (ticks - next) next
      (r.1 + 1, r.2)
    else (0, next - ticks)

/-- The per-stream cycle accounting of `Factory::tick`: decompose `n` elapsed
ticks into whole cycles honoring the persisted countdown (`next`, defaulting
to the period). -/
def streamAdvance (reset : ℕ) (next0 : Option ℕ) (n : ℕ) : ℕ × ℕ :=
  tickLoop n reset n (next0.getD reset)

/-- Modelled from the spec: `Buffer::fill_from` (absent from the sources)
transfers `min(source.current, self.max - self.current)` units from the
source buffer into this one.  Returns (filled self, drained source). -/
def fill_from (own src : Buffer) : Buffer × Buffer :=
  let t := min src.current (own.max - own.current)
  ({ own with current := own.current + t }, { src with current := src.current - t })

/-- One input-slot pull of the simulator: if the upstream stream `u` has an
output buffer for `p`, pull as much as fits into stream `i`'s own buffer for
`p` (created on first use with capacity `required * DEFAULT_BUF_MULT * mult`),
draining the upstream buffer in place. -/
def doFill (fa : Factory) (i : ℕ) (p : Product) (u : ℕ) : Factory :=
  match lookupB (fa.get u).buffers p with
  | none => fa
  | some src =>
    let s := fa.get i
    let own := (lookupB s.buffers p).getD
      { current := 0, max := (s.recipe.required_of p).getD 0 * DEFAULT_BUF_MULT * s.mult }
    let fs := fill_from own src
    let fa1 := fa.set u { fa.get u with buffers := modifyB (fa.get u).buffers p (fun _ => fs.2) }
    fa1.set i { fa1.get i with buffers := insertB (fa1.get i).buffers p fs.1 }

/-- The pull phase of one production cycle: every input slot of stream `i`
pulls from its upstream stream's buffer. -/
def fillPhase (fa : Factory) (i : ℕ) : Factory :=
  (fa.get i).inputs.foldl (fun fa' pr => doFill fa' i pr.1 pr.2) fa

/-- Every input part's buffer holds at least `amount * mult` units (a missing
buffer holds 0). -/
def inOk (s : Stream) : Bool :=
  s.recipe.inputs.all (fun part =>
    part.amount * s.mult ≤ ((lookupB s.buffers part.product).getD ⟨0, 0⟩).current)

/-- Every output part has a buffer with at least `amount * mult` units of free
capacity. -/
def outOk (s : Stream) : Bool :=
  s.recipe.outputs.all (fun part =>
    match lookupB s.buffers part.product with
    | some b => b.current + part.amount * s.mult ≤ b.max
    | none => false)

/-- The buffer state after one successful production cycle: all input buffers
decremented, then all output buffers incremented, by `amount * mult`. -/
def produceUpdate (s : Stream) : List (Product × Buffer) :=
  let bs := s.recipe.inputs.foldl (fun bs part =>
    modifyB bs part.product (fun b => { b with current := b.current - part.amount * s.mult })) s.buffers
  s.recipe.outputs.foldl (fun bs part =>
    modifyB bs part.product (fun b => { b with current := b.current + part.amount * s.mult })) bs

/-- Modelled from the spec: `Stream::try_produce` (absent from the sources)
checks every input for stock and every output for headroom, and only on
success applies the decrements and increments atomically. -/
def try_produce (s : Stream) : Option Stream :=
  if inOk s && outOk s then some { s with buffers := produceUpdate s } else none

/-- The production loop of `Factory::tick`: run up to `cycles` cycles, each
pulling inputs then attempting production; a failed attempt abandons the
remaining cycles. -/
def runCycles : ℕ → Factory → ℕ → Factory
  | 0, fa, _ => fa
  | n + 1, fa, i =>
    let fa1 := fillPhase fa i
    match try_produce (fa1.get i) with
    | some s' => runCycles n (fa1.set i s') i
    | none => fa1

/-- The `as usize` cast of the `f64` tick period. -/
def ratToUsize (q : ℚ) : ℕ := (Int.floor q).toNat

/-- The per-stream body of `Factory::tick`: count elapsed cycles, persist the
updated countdown, then run the production cycles.  (The per-product
`produced` report only feeds `println!` and is not modelled.) -/
def tickStream (fa : Factory) (i : ℕ) (n : ℕ) : Factory :=
  let s := fa.get i
  let reset := ratToUsize s.recipe.rate.ticks
  let adv := streamAdvance reset s.next n
  let fa1 := fa.set i { s with next := some adv.2 }
  runCycles adv.1 fa1 i

/-- `Factory::tick`: advance every registered stream in arena order (the
source iterates a `HashMap` in unspecified order; the spec notes the order is
an open question, and the claims below involve single-stream factories). -/
def Factory.tick (fa : Factory) (n : ℕ) : Factory :=
  (List.range fa.streams.length).foldl (fun fa' i => tickStream fa' i n) fa

/-- The spec's data-model invariants for a recipe (§3): positive base rate
and strictly positive part amounts. -/
def wfRecipe (r : Recipe) : Prop :=
  0 < r.rate.amount ∧ 0 < r.rate.ticks ∧
    (∀ part ∈ r.inputs, 1 ≤ part.amount) ∧ (∀ part ∈ r.outputs, 1 ≤ part.amount)

instance (r : Recipe) : Decidable (wfRecipe r) := by
  unfold wfRecipe; infer_instance

/-- Every registered stream's recipe satisfies the data-model invariants. -/
def wfFactory (fa : Factory) : Prop :=
  ∀ j, j < fa.streams.length → wfRecipe (fa.get j).recipe

instance (fa : Factory) : Decidable (wfFactory fa) := by
  unfold wfFactory; infer_instance

/-- The finite part of an `f64` value. -/
def toFin : F64 → Option ℚ
  | F64.fin q => some q
  | F64.inf => none
  | F64.nan => none

/-- The spec's capped minimum over the non-excluded components; one when all
components are excluded. -/
def minCap : List ℚ → ℚ
  | [] => 1
  | c :: cs => min (cs.foldl min c) 1

/-- Efficiency computed the way the spec's words describe the degenerate
cases (§4.2, §7): components whose optimal demand is the zero rate are
excluded from the minimum outright; if every component is excluded the stream
counts as fully supplied; an input-less recipe on a wired stream yields `0`.
This is the comparison definition for the refinement claim about zero-demand
handling; the realized supply is shared with the code's definition. -/
def efficiencyFromSpec : ℕ → Factory → ℕ → ℚ
  | 0, _, _ => 1
  | f + 1, fa, i =>
    let s := fa.get i
    if s.inputs = [] then 1
    else if s.recipe.inputs = [] then 0
    else minCap (s.recipe.inputs.filterMap (fun ingr =>
      let dv := ((s.recipe.optimal_inflow_of ingr.product).nsmul s.mult).val
      if dv = 0 then none
      else some ((inputs_rate_of_aux (efficiency f) fa s.inputs ingr.product).val / dv)))

section Lemmas

/-! ### Arena lemmas -/

theorem Factory.get_set_self {fa : Factory} {i : ℕ} {s : Stream} (h : i < fa.streams.length) :
    (fa.set i s).get i = s := by
  simp [Factory.get, Factory.set, List.getD, List.getElem?_set_self, h]

theorem Factory.get_set_ne {fa : Factory} {i j : ℕ} {s : Stream} (h : j ≠ i) :
    (fa.set i s).get j = fa.get j := by
  simp [Factory.get, Factory.set, List.getD, List.getElem?_set_ne (Ne.symm h)]

theorem Factory.set_oob {fa : Factory} {i : ℕ} {s : Stream} (h : fa.streams.length ≤ i) :
    fa.set i s = fa := by
  simp [Factory.set, List.set_eq_of_length_le h]

theorem Factory.length_set (fa : Factory) (i : ℕ) (s : Stream) :
    (fa.set i s).streams.length = fa.streams.length := by
  simp [Factory.set]

theorem Factory.get_default {fa : Factory} {j : ℕ} (h : fa.streams.length ≤ j) :
    fa.get j = default := by
  simp [Factory.get, List.getD, List.getElem?_eq_none h]

theorem wfRecipe_default : wfRecipe (default : Stream).recipe := by
  refine ⟨?_, ?_, ?_, ?_⟩ <;> simp [default, defaultStream]

theorem wfFactory.get {fa : Factory} (h : wfFactory fa) (j : ℕ) :
    wfRecipe (fa.get j).recipe := by
  rcases lt_or_le j fa.streams.length with hj | hj
  · exact h j hj
  · rw [Factory.get_default hj]; exact wfRecipe_default

/-! ### Rate value lemmas -/

theorem Rate.val_ZERO : Rate.ZERO.val = 0 := by simp [Rate.val, Rate.ZERO]

theorem Rate.add_ticks (r s : Rate) : (r.add s).ticks = r.ticks * s.ticks := rfl

theorem Rate.val_add {r s : Rate} (hr : r.ticks ≠ 0) (hs : s.ticks ≠ 0) :
    (r.add s).val = r.val + s.val := by
  simp only [Rate.val, Rate.add]
  field_simp

theorem Rate.val_nsmul (r : Rate) (n : ℕ) : (r.nsmul n).val = r.val * n := by
  simp [Rate.val, Rate.nsmul, mul_div_right_comm]

theorem Rate.val_escale (r : Rate) (e : ℚ) : (r.escale e).val = r.val * e := by
  simp [Rate.val, Rate.escale, mul_div_right_comm]

theorem Rate.nsmul_ticks (r : Rate) (n : ℕ) : (r.nsmul n).ticks = r.ticks := rfl

theorem Rate.escale_ticks (r : Rate) (e : ℚ) : (r.escale e).ticks = r.ticks := rfl

/-- Folding `Rate.add` over rates with nonzero tick bases: the ticks stay
nonzero and the realized values add up. -/
theorem Rate.foldl_add_val (l : List Rate) (init : Rate) (h0 : init.ticks ≠ 0)
    (hl : ∀ r ∈ l, r.ticks ≠ 0) :
    (l.foldl Rate.add init).ticks ≠ 0 ∧
      (l.foldl Rate.add init).val = init.val + (l.map Rate.val).sum := by
  induction l generalizing init with
  | nil => simpa using h0
  | cons r t ih =>
    have hr : r.ticks ≠ 0 := hl r (List.mem_cons_self r t)
    have ht : ∀ x ∈ t, x.ticks ≠ 0 := fun x hx => hl x (List.mem_cons_of_mem _ hx)
    have hadd : (init.add r).ticks ≠ 0 := by
      rw [Rate.add_ticks]; exact mul_ne_zero h0 hr
    obtain ⟨h1, h2⟩ := ih (init.add r) hadd ht
    refine ⟨h1, ?_⟩
    rw [List.foldl_cons] at *
    rw [h2, Rate.val_add h0 hr]
    simp [add_assoc]

/-! ### Optimal-flow lemmas -/

theorem wfRecipe.rate_val_pos {r : Recipe} (h : wfRecipe r) : 0 < r.rate.val :=
  div_pos h.1 h.2.1

/-- The contributions folded by the flow accessors: ticks and realized value. -/
theorem flow_fold_spec (rt : Rate) (l : List RecipePart) (p : Product) (ht : rt.ticks ≠ 0) :
    (((l.filterMap (fun part => if part.product = p then some (rt.nsmul part.amount) else none)).foldl Rate.add Rate.ZERO).ticks ≠ 0 ∧
      ((l.filterMap (fun part => if part.product = p then some (rt.nsmul part.amount) else none)).foldl Rate.add Rate.ZERO).val
        = ((l.filterMap (fun part => if part.product = p then some (rt.nsmul part.amount) else none)).map Rate.val).sum) := by
  have hmem : ∀ x ∈ l.filterMap (fun part => if part.product = p then some (rt.nsmul part.amount) else none), x.ticks ≠ 0 := by
    intro x hx
    rcases List.mem_filterMap.mp hx with ⟨part, _, hpe⟩
    split at hpe
    · cases hpe; simpa [Rate.nsmul_ticks] using ht
    · cases hpe
  have h0 : Rate.ZERO.ticks ≠ 0 := by simp [Rate.ZERO]
  obtain ⟨h1, h2⟩ := Rate.foldl_add_val _ Rate.ZERO h0 hmem
  exact ⟨h1, by rw [h2, Rate.val_ZERO, zero_add]⟩

theorem flow_val_nonneg {rt : Rate} (l : List RecipePart) (p : Product)
    (ht : rt.ticks ≠ 0) (hv : 0 ≤ rt.val) :
    0 ≤ ((l.filterMap (fun part => if part.product = p then some (rt.nsmul part.amount) else none)).foldl Rate.add Rate.ZERO).val := by
  rw [(flow_fold_spec rt l p ht).2]
  apply List.sum_nonneg
  intro x hx
  rcases List.mem_map.mp hx with ⟨y, hy, rfl⟩
  rcases List.mem_filterMap.mp hy with ⟨part, _, hpe⟩
  split at hpe
  · cases hpe
    rw [Rate.val_nsmul]
    positivity
  · cases hpe

theorem optimal_inflow_of_val_nonneg {r : Recipe} (h : wfRecipe r) (p : Product) :
    0 ≤ (r.optimal_inflow_of p).val :=
  flow_val_nonneg r.inputs p (ne_of_gt h.2.1) (le_of_lt h.rate_val_pos)

theorem optimal_outflow_of_val_nonneg {r : Recipe} (h : wfRecipe r) (p : Product) :
    0 ≤ (r.optimal_outflow_of p).val :=
  flow_val_nonneg r.outputs p (ne_of_gt h.2.1) (le_of_lt h.rate_val_pos)

theorem optimal_outflow_of_ticks_ne {r : Recipe} (h : wfRecipe r) (p : Product) :
    (r.optimal_outflow_of p).ticks ≠ 0 :=
  (flow_fold_spec r.rate r.outputs p (ne_of_gt h.2.1)).1

/-- A present (`some`) optional outflow of a well-formed recipe is a strictly
positive rate. -/
theorem optimal_outflow_opt_val_pos {r : Recipe} (h : wfRecipe r) {p : Product} {w : Rate}
    (hs : r.optimal_outflow_opt p = some w) : 0 < w.val := by
  unfold Recipe.optimal_outflow_opt at hs
  simp only at hs
  split at hs
  · cases hs
  · rename_i hne
    injection hs with hw
    have hspec := flow_fold_spec r.rate r.outputs p (ne_of_gt h.2.1)
    rw [← hw, hspec.2]
    apply List.sum_pos
    · intro q hq
      rcases List.mem_map.mp hq with ⟨y, hy, rfl⟩
      rcases List.mem_filterMap.mp hy with ⟨part, hpl, hpe⟩
      split at hpe
      · cases hpe
        rw [Rate.val_nsmul]
        have hamt : 1 ≤ part.amount := h.2.2.2 part hpl
        have : (1 : ℚ) ≤ (part.amount : ℚ) := by exact_mod_cast hamt
        nlinarith [h.rate_val_pos]
      · cases hpe
    · simpa using hne

/-! ### IEEE minimum-reduction lemmas -/

theorem toFin_fdiv (a b : ℚ) : toFin (fdiv a b) = if b = 0 then none else some (a / b) := by
  by_cases h2 : b = 0
  · by_cases h1 : a = 0 <;> simp [fdiv, toFin, h1, h2]
  · simp [fdiv, toFin, h2]

/-- Folding `f64::min` from a finite accumulator ignores the NaN/∞ components
and takes the plain minimum of the finite ones. -/
theorem foldl_fmin_fin (l : List F64) (a : ℚ) :
    l.foldl fmin (F64.fin a) = F64.fin ((l.filterMap toFin).foldl min a) := by
  induction l generalizing a with
  | nil => rfl
  | cons x t ih => cases x <;> simp [fmin, toFin, ih]

/-- Folding `f64::min` from a NaN or ∞ accumulator: the result, capped at one,
is the capped minimum of the finite components. -/
theorem capOne_foldl_nonfin (l : List F64) (x : F64) (hx : x = F64.nan ∨ x = F64.inf) :
    capOne (l.foldl fmin x) = minCap (l.filterMap toFin) := by
  induction l generalizing x with
  | nil => rcases hx with rfl | rfl <;> rfl
  | cons y t ih =>
    cases y with
    | fin b =>
      have hstep : fmin x (F64.fin b) = F64.fin b := by
        rcases hx with rfl | rfl <;> rfl
      simp only [List.foldl_cons, hstep, foldl_fmin_fin, List.filterMap_cons, toFin, capOne, minCap]
    | inf =>
      have hx' : fmin x F64.inf = F64.nan ∨ fmin x F64.inf = F64.inf := by
        rcases hx with rfl | rfl <;> exact Or.inr rfl
      simp only [List.foldl_cons, List.filterMap_cons, toFin]
      exact ih _ hx'
    | nan =>
      have hstep : fmin x F64.nan = x := by rcases hx with rfl | rfl <;> rfl
      simp only [List.foldl_cons, hstep, List.filterMap_cons, toFin]
      exact ih x hx

/-- The whole reduction of `Stream::efficiency` over a nonempty component
list, compared with the spec's filtered capped minimum. -/
theorem capOne_reduce (c : F64) (cs : List F64) :
    capOne (cs.foldl fmin c) = minCap ((c :: cs).filterMap toFin) := by
  cases c with
  | fin a =>
    simp only [foldl_fmin_fin, List.filterMap_cons, toFin, capOne, minCap]
  | inf =>
    simp only [List.filterMap_cons, toFin]
    exact capOne_foldl_nonfin cs F64.inf (Or.inr rfl)
  | nan =>
    simp only [List.filterMap_cons, toFin]
    exact capOne_foldl_nonfin cs F64.nan (Or.inl rfl)

/-- The reduction over a nonempty component list equals the spec's filtered
capped minimum. -/
theorem reduceEff_eq {L : List F64} (hL : L ≠ []) :
    reduceEff L = minCap (L.filterMap toFin) := by
  cases L with
  | nil => cases hL rfl
  | cons c cs => exact capOne_reduce c cs

/-! ### Leaf streams and simple equations -/

theorem efficiency_leaf (fuel : ℕ) (fa : Factory) (i : ℕ) (h : (fa.get i).inputs = []) :
    efficiency fuel fa i = 1 := by
  cases fuel <;> simp [efficiency, h]

theorem solve_leaf (fuel : ℕ) (fa : Factory) (i : ℕ) (h : (fa.get i).inputs = []) :
    solve fuel fa i = fa := by
  cases fuel with
  | zero => rfl
  | succ f => simp [solve, efficiency_leaf _ _ _ h]

/-! ### Efficiency: code form versus spec form -/

theorem efficiency_eq_spec (fuel : ℕ) (fa : Factory) (i : ℕ) :
    efficiency fuel fa i = efficiencyFromSpec fuel fa i := by
  cases fuel with
  | zero => rfl
  | succ f =>
    simp only [efficiency, efficiencyFromSpec]
    by_cases hin : (fa.get i).inputs = []
    · simp [hin]
    · simp only [hin, if_false]
      by_cases hri : (fa.get i).recipe.inputs = []
      · simp [hri, reduceEff]
      · have hmne : (fa.get i).recipe.inputs.map (fun ingr =>
            fdiv (inputs_rate_of_aux (efficiency f) fa (fa.get i).inputs ingr.product).val
              (((fa.get i).recipe.optimal_inflow_of ingr.product).nsmul (fa.get i).mult).val) ≠ [] := by
          simpa using hri
        have hfun : (toFin ∘ fun (ingr : RecipePart) =>
            fdiv (inputs_rate_of_aux (efficiency f) fa (fa.get i).inputs ingr.product).val
              (((fa.get i).recipe.optimal_inflow_of ingr.product).nsmul (fa.get i).mult).val)
            = (fun (ingr : RecipePart) =>
              if (((fa.get i).recipe.optimal_inflow_of ingr.product).nsmul (fa.get i).mult).val = 0 then none
              else some ((inputs_rate_of_aux (efficiency f) fa (fa.get i).inputs ingr.product).val /
                (((fa.get i).recipe.optimal_inflow_of ingr.product).nsmul (fa.get i).mult).val)) := by
          funext x
          simp [Function.comp, toFin_fdiv]
        rw [reduceEff_eq hmne, List.filterMap_map, hfun, if_neg hri]

/-! ### Efficiency bounds -/

theorem foldl_min_nonneg {c : ℚ} {cs : List ℚ} (hc : 0 ≤ c) (hcs : ∀ x ∈ cs, 0 ≤ x) :
    0 ≤ cs.foldl min c := by
  induction cs generalizing c with
  | nil => exact hc
  | cons x t ih =>
    refine ih (le_min hc (hcs x (List.mem_cons_self x t))) ?_
    exact fun y hy => hcs y (List.mem_cons_of_mem _ hy)

theorem rate_of_aux_val {f : ℕ} {fa : Factory} {j : ℕ} {p : Product} {r : Rate}
    (hw : wfFactory fa) (heff : 0 ≤ efficiency f fa j)
    (hr : rate_of_aux (efficiency f) fa j p = some r) :
    0 ≤ r.val ∧ r.ticks ≠ 0 := by
  unfold rate_of_aux at hr
  simp only at hr
  split at hr
  · cases hr
  · injection hr with hr
    subst hr
    have hwr := hw.get j
    constructor
    · rw [Rate.val_nsmul, Rate.val_escale]
      have h1 := optimal_outflow_of_val_nonneg hwr p
      positivity
    · rw [Rate.nsmul_ticks, Rate.escale_ticks]
      exact optimal_outflow_of_ticks_ne hwr p

theorem inputs_rate_of_aux_val_nonneg {f : ℕ} {fa : Factory} {p : Product}
    (inps : List (Product × ℕ)) (hw : wfFactory fa)
    (heffs : ∀ j, 0 ≤ efficiency f fa j) :
    0 ≤ (inputs_rate_of_aux (efficiency f) fa inps p).val := by
  unfold inputs_rate_of_aux
  have hmem : ∀ r ∈ inps.filterMap (fun pr => rate_of_aux (efficiency f) fa pr.2 p),
      0 ≤ r.val ∧ r.ticks ≠ 0 := by
    intro r hr
    rcases List.mem_filterMap.mp hr with ⟨pr, _, hpe⟩
    exact rate_of_aux_val hw (heffs pr.2) hpe
  have h0 : Rate.ZERO.ticks ≠ 0 := by simp [Rate.ZERO]
  obtain ⟨_, hval⟩ := Rate.foldl_add_val _ Rate.ZERO h0 (fun r hr => (hmem r hr).2)
  rw [hval, Rate.val_ZERO, zero_add]
  apply List.sum_nonneg
  intro q hq
  rcases List.mem_map.mp hq with ⟨r, hr, rfl⟩
  exact (hmem r hr).1

/-- Efficiency is always within `[0, 1]` on well-formed data, and exactly `1`
for a stream with no inputs. -/
theorem efficiency_bounds : ∀ (fuel : ℕ) (fa : Factory), wfFactory fa →
    ∀ i, 0 ≤ efficiency fuel fa i ∧ efficiency fuel fa i ≤ 1 := by
  intro fuel
  induction fuel with
  | zero => intro fa _ i; simp [efficiency]
  | succ f ih =>
    intro fa hw i
    rw [efficiency_eq_spec]
    simp only [efficiencyFromSpec]
    by_cases hin : (fa.get i).inputs = []
    · simp [hin]
    · simp only [hin, if_false]
      by_cases hri : (fa.get i).recipe.inputs = []
      · simp [hri]
      · simp only [hri, if_false]
        set comps := (fa.get i).recipe.inputs.filterMap (fun ingr =>
          let dv := (((fa.get i).recipe.optimal_inflow_of ingr.product).nsmul (fa.get i).mult).val
          if dv = 0 then none
          else some ((inputs_rate_of_aux (efficiency f) fa (fa.get i).inputs ingr.product).val / dv)) with hcomps
        have hnn : ∀ x ∈ comps, 0 ≤ x := by
          intro x hx
          rw [hcomps] at hx
          rcases List.mem_filterMap.mp hx with ⟨ingr, _, hpe⟩
          simp only at hpe
          split at hpe
          · cases hpe
          · rename_i hdv
            injection hpe with hpe
            subst hpe
            have hdnn : 0 ≤ (((fa.get i).recipe.optimal_inflow_of ingr.product).nsmul (fa.get i).mult).val := by
              rw [Rate.val_nsmul]
              have := optimal_inflow_of_val_nonneg (hw.get i) ingr.product
              positivity
            have hrnn : 0 ≤ (inputs_rate_of_aux (efficiency f) fa (fa.get i).inputs ingr.product).val :=
              inputs_rate_of_aux_val_nonneg _ hw (fun j => (ih fa hw j).1)
            exact div_nonneg hrnn hdnn
        cases hc : comps with
        | nil => simp [minCap]
        | cons c cs =>
          rw [hc] at hnn
          constructor
          · simp only [minCap]
            refine le_min ?_ (by norm_num)
            exact foldl_min_nonneg (hnn c (List.mem_cons_self c cs))
              (fun x hx => hnn x (List.mem_cons_of_mem _ hx))
          · simp [minCap]

/-! ### Ceiling helpers -/

theorem natCeil_eq_of {q : ℚ} {n : ℕ} (h1 : (n : ℚ) - 1 < q) (h2 : q ≤ n) : natCeil q = n := by
  unfold natCeil
  have hz : (⌈q⌉ : ℤ) = (n : ℤ) := by
    rw [Int.ceil_eq_iff]
    constructor
    · push_cast
      linarith
    · push_cast
      exact h2
  rw [hz]
  simp

theorem natCeil_two_sub_eps : natCeil ((2 : ℚ) - epsF) = 2 := by
  apply natCeil_eq_of <;> norm_num [epsF]

theorem natCeil_three_sub_eps : natCeil ((3 : ℚ) - epsF) = 3 := by
  apply natCeil_eq_of <;> norm_num [epsF]

end Lemmas

/-! ### The two-stream scenario of the spec (§8) -/

def prodA : Product := ⟨0, 0⟩

def prodB : Product := ⟨1, 0⟩

/-- The upstream recipe: one unit of A per 4 ticks. -/
def upRecipe : Recipe := ⟨⟨1, 4⟩, [], [⟨prodA, 1⟩]⟩

/-- The derived recipe: 2 units of A in, 3 units of B out, per 4 ticks. -/
def downRecipe : Recipe := ⟨⟨1, 4⟩, [⟨prodA, 2⟩], [⟨prodB, 3⟩]⟩

/-- The upstream leaf stream at `mult = 1`, with its freshly constructed
output buffer (`amount * DEFAULT_BUF_MULT`). -/
def upStream : Stream := ⟨1, upRecipe, [], [(prodA, ⟨0, 8⟩)], none, 4⟩

/-- The derived stream, wired to arena slot 0 for its A input. -/
def downStream : Stream := ⟨1, downRecipe, [(prodA, 0)], [(prodB, ⟨0, 24⟩)], none, 4⟩

/-- The undersupplied scenario: A is produced at 1 unit per 4 ticks but the
derived stream demands 2 units per 4 ticks. -/
def scenarioFactory : Factory := ⟨[upStream, downStream]⟩

section ScenarioLemmas

theorem upRecipe_outflowA : upRecipe.optimal_outflow_of prodA = ⟨1, 4⟩ := by
  unfold Recipe.optimal_outflow_of upRecipe
  norm_num [List.filterMap_cons, Rate.nsmul, Rate.add, Rate.ZERO]

theorem downRecipe_inflowA : downRecipe.optimal_inflow_of prodA = ⟨2, 4⟩ := by
  unfold Recipe.optimal_inflow_of downRecipe
  norm_num [List.filterMap_cons, Rate.nsmul, Rate.add, Rate.ZERO]

theorem downRecipe_inflowA_opt : downRecipe.optimal_inflow_opt prodA = some ⟨2, 4⟩ := by
  simp only [Recipe.optimal_inflow_opt, downRecipe]
  norm_num [List.filterMap_cons, Rate.nsmul, Rate.add, Rate.ZERO]

theorem upRecipe_outflowA_opt : upRecipe.optimal_outflow_opt prodA = some ⟨1, 4⟩ := by
  simp only [Recipe.optimal_outflow_opt, upRecipe]
  norm_num [List.filterMap_cons, Rate.nsmul, Rate.add, Rate.ZERO]

theorem scenario_up_rate (f : ℕ) : rate_of f scenarioFactory 0 prodA = some ⟨1, 4⟩ := by
  have hup : efficiency f scenarioFactory 0 = 1 := efficiency_leaf f scenarioFactory 0 rfl
  unfold rate_of
  simp only [rate_of_aux]
  rw [show scenarioFactory.get 0 = upStream from rfl]
  rw [show upStream.recipe = upRecipe from rfl, upRecipe_outflowA, hup]
  norm_num [Rate.ZERO, Rate.escale, Rate.nsmul, upStream]

theorem scenario_supplied (f : ℕ) :
    inputs_rate_of_aux (efficiency f) scenarioFactory [(prodA, 0)] prodA = ⟨1, 4⟩ := by
  simp only [inputs_rate_of_aux]
  rw [List.filterMap_cons]
  norm_num [show rate_of_aux (efficiency f) scenarioFactory 0 prodA = some ⟨1, 4⟩ from
    scenario_up_rate f, Rate.add, Rate.ZERO]

theorem scenario_efficiency (f : ℕ) : efficiency (f + 1) scenarioFactory 1 = 1 / 2 := by
  simp only [efficiency]
  rw [show scenarioFactory.get 1 = downStream from rfl]
  rw [show downStream.inputs = [(prodA, 0)] from rfl,
    show downStream.recipe = downRecipe from rfl,
    show downStream.mult = 1 from rfl,
    show downRecipe.inputs = [⟨prodA, 2⟩] from rfl]
  simp only [List.map_cons, List.map_nil]
  rw [scenario_supplied f, downRecipe_inflowA]
  norm_num [reduceEff, capOne, fdiv, Rate.val, Rate.nsmul]

theorem scenario_scan (f : ℕ) :
    scanStep (solve f) (rate_of (f + 1)) 1 (scenarioFactory, []) ((prodA, 0), ⟨prodA, 2⟩) =
      (scenarioFactory, [(0, 2)]) := by
  simp only [scanStep, scanRec, scanPush,
    show (scenarioFactory.get 1).recipe = downRecipe from rfl, downRecipe_inflowA_opt,
    show (scenarioFactory.get 0).recipe = upRecipe from rfl, upRecipe_outflowA_opt,
    scenario_up_rate (f + 1),
    show (scenarioFactory.get 1).mult = 1 from rfl,
    show (scenarioFactory.get 0).mult = 1 from rfl,
    solve_leaf f scenarioFactory 0 rfl]
  norm_num [Rate.nsmul, Rate.val, natCeil_two_sub_eps]

theorem scenario_solve (f : ℕ) :
    solve (f + 1) scenarioFactory 1 = applyChange scenarioFactory 0 2 := by
  have hcond : efficiency (f + 1) scenarioFactory 1 < 1 := by
    rw [scenario_efficiency f]
    norm_num
  simp only [solve, hcond, if_true]
  simp only [show scenarioFactory.get 1 = downStream from rfl]
  simp only [show downStream.inputs.flatMap
      (fun inp => downStream.recipe.inputs.map (fun ingr => (inp, ingr)))
      = [((prodA, 0), (⟨prodA, 2⟩ : RecipePart))] from rfl]
  simp only [List.foldl_cons, List.foldl_nil]
  rw [scenario_scan f]
  simp only [solveApply, List.foldl_cons, List.foldl_nil, applyStep]
  exact solve_leaf f (applyChange scenarioFactory 0 2) 0 rfl

end ScenarioLemmas

/-! ### Tick-cycle accounting -/

section TickLemmas

theorem tickLoop_zero_ticks (fuel reset next : ℕ) : tickLoop fuel reset 0 next = (0, next) := by
  cases fuel <;> simp [tickLoop]

/-- A whole number of periods starting at a full countdown elapses exactly
that many cycles and returns the countdown to the full period. -/
theorem tickLoop_mult {p k : ℕ} (hp : 1 ≤ p) (hk : 1 ≤ k) :
    tickLoop (k * p) p (k * p) p = (k, p) := by
  have hpos : 0 < k * p := Nat.mul_pos (by omega) (by omega)
  obtain ⟨m, hm⟩ : ∃ m, k * p = m + 1 := ⟨k * p - 1, by omega⟩
  rw [hm]
  simp only [tickLoop]
  by_cases h2 : p < m + 1
  · rw [if_neg (by omega), if_pos h2]
    have hmod : (m + 1) % p = 0 := by rw [← hm]; exact Nat.mul_mod_left k p
    have hdiv : (m + 1) / p = k := by rw [← hm]; exact Nat.mul_div_left k (by omega)
    rw [hmod, hdiv, tickLoop_zero_ticks]
    simp
  · have hle : m + 1 ≤ p := Nat.not_lt.mp h2
    have hle2 : k * p ≤ 1 * p := by rw [hm]; omega
    have hk1 : k = 1 := by
      have := Nat.le_of_mul_le_mul_right hle2 (show 0 < p by omega)
      omega
    subst hk1
    rw [one_mul] at hm
    rw [if_neg (by omega), if_neg h2, if_pos (by omega : p ≤ m + 1)]
    have hz : m + 1 - p = 0 := by omega
    rw [hz, tickLoop_zero_ticks]

theorem streamAdvance_mult {p k : ℕ} (hp : 1 ≤ p) (hk : 1 ≤ k) (n0 : Option ℕ)
    (hn : n0 = none ∨ n0 = some p) : streamAdvance p n0 (k * p) = (k, p) := by
  rcases hn with rfl | rfl <;> simpa [streamAdvance] using tickLoop_mult hp hk

end TickLemmas

/-! ### A freshly constructed leaf stream under `tick` -/

/-- A freshly constructed leaf stream with one output part, alone in an
arena: `mult = 1`, empty inputs, output buffer `amount * DEFAULT_BUF_MULT`. -/
def leafFactory (P : Product) (a p : ℕ) : Factory :=
  ⟨[⟨1, ⟨⟨1, (p : ℚ)⟩, [], [⟨P, a⟩]⟩, [], [(P, ⟨0, a * DEFAULT_BUF_MULT⟩)], none, p⟩]⟩

/-- The leaf factory mid-simulation: buffer at `c` units, countdown `n'`. -/
def leafState (P : Product) (a p c n' : ℕ) : Factory :=
  ⟨[⟨1, ⟨⟨1, (p : ℚ)⟩, [], [⟨P, a⟩]⟩, [], [(P, ⟨c, a * DEFAULT_BUF_MULT⟩)], some n', p⟩]⟩

section LeafLemmas

theorem ratToUsize_natCast (n : ℕ) : ratToUsize (n : ℚ) = n := by
  simp [ratToUsize]

theorem try_produce_leafState (P : Product) (a p c n' : ℕ) :
    try_produce ((leafState P a p c n').get 0)
      = if c + a * 1 ≤ a * DEFAULT_BUF_MULT
        then some ((leafState P a p (c + a * 1) n').get 0) else none := by
  by_cases h : c + a * 1 ≤ a * DEFAULT_BUF_MULT
  · rw [if_pos h]
    simp [try_produce, inOk, outOk, produceUpdate, lookupB, leafState, Factory.get]
    refine ⟨by linarith, ?_⟩
    simp [modifyB]
  · rw [if_neg h]
    have h' : a * DEFAULT_BUF_MULT < c + a * 1 := Nat.lt_of_not_le h
    simp [try_produce, inOk, outOk, lookupB, leafState, Factory.get]
    linarith

/-- Running `k` production cycles on the leaf stream with `j` cycles' worth
already stored: the buffer ends at `min (j + k) DEFAULT_BUF_MULT` cycles'
worth, each further cycle stalling once the buffer headroom is exhausted. -/
theorem runCycles_leafState (P : Product) (a p n' : ℕ) (ha : 1 ≤ a) :
    ∀ (k j : ℕ), j ≤ DEFAULT_BUF_MULT →
      runCycles k (leafState P a p (j * a) n') 0
        = leafState P a p (min (j + k) DEFAULT_BUF_MULT * a) n' := by
  intro k
  induction k with
  | zero =>
    intro j hj
    rw [show min (j + 0) DEFAULT_BUF_MULT = j from by omega]
    rfl
  | succ k ih =>
    intro j hj
    have hfill : fillPhase (leafState P a p (j * a) n') 0 = leafState P a p (j * a) n' := rfl
    simp only [runCycles, hfill, try_produce_leafState]
    by_cases hjlt : j + 1 ≤ DEFAULT_BUF_MULT
    · have hcond : j * a + a * 1 ≤ a * DEFAULT_BUF_MULT := by
        have := Nat.mul_le_mul_right a hjlt
        nlinarith
      rw [if_pos hcond]
      show runCycles k ((leafState P a p (j * a) n').set 0
        ((leafState P a p (j * a + a * 1) n').get 0)) 0 = _
      have hset : (leafState P a p (j * a) n').set 0 ((leafState P a p (j * a + a * 1) n').get 0)
          = leafState P a p ((j + 1) * a) n' := by
        have harith : j * a + a * 1 = (j + 1) * a := by ring
        rw [harith]
        rfl
      rw [hset, ih (j + 1) hjlt, show j + 1 + k = j + (k + 1) from by omega]
    · have hj8 : j = DEFAULT_BUF_MULT := by omega
      have hcond : ¬ (j * a + a * 1 ≤ a * DEFAULT_BUF_MULT) := by
        subst hj8
        unfold DEFAULT_BUF_MULT
        nlinarith
      rw [if_neg hcond]
      show leafState P a p (j * a) n' = _
      subst hj8
      rw [show min (DEFAULT_BUF_MULT + (k + 1)) DEFAULT_BUF_MULT = DEFAULT_BUF_MULT from by omega]

/-- `tick(k * period)` on the fresh leaf factory: the buffer receives
`min k DEFAULT_BUF_MULT` cycles' worth and the countdown persists at the
full period. -/
theorem tick_leafFactory (P : Product) (a p k : ℕ) (ha : 1 ≤ a) (hp : 1 ≤ p) (hk : 1 ≤ k) :
    (leafFactory P a p).tick (k * p) = leafState P a p (min k DEFAULT_BUF_MULT * a) p := by
  rw [show (leafFactory P a p).tick (k * p) = tickStream (leafFactory P a p) 0 (k * p) from by
    simp [Factory.tick, leafFactory, show List.range 1 = [0] from rfl]]
  simp only [tickStream]
  rw [show ((leafFactory P a p).get 0).recipe.rate.ticks = (p : ℚ) from rfl,
    ratToUsize_natCast,
    show ((leafFactory P a p).get 0).next = none from rfl,
    streamAdvance_mult hp hk none (Or.inl rfl)]
  show runCycles k ((leafFactory P a p).set 0 _) 0 = _
  have hset : (leafFactory P a p).set 0
      { (leafFactory P a p).get 0 with next := some ((k, p).2) } = leafState P a p (0 * a) p := by
    rw [Nat.zero_mul]
    rfl
  rw [hset, runCycles_leafState P a p p ha k 0 (by omega), Nat.zero_add]

end LeafLemmas

/-! ### The floor-division scaling scenario -/

/-- A recipe demanding 3 units of A per 4 ticks, producing 1 unit of B. -/
def quotRecipe : Recipe := ⟨⟨1, 4⟩, [⟨prodA, 3⟩], [⟨prodB, 1⟩]⟩

/-- An upstream leaf at `mult = 2` (capacity 2 units of A per 4 ticks). -/
def up4Stream : Stream := ⟨2, upRecipe, [], [(prodA, ⟨0, 8⟩)], none, 4⟩

def down4Stream : Stream := ⟨1, quotRecipe, [(prodA, 0)], [(prodB, ⟨0, 8⟩)], none, 4⟩

/-- Demand 3/4, capacity 1/2: `solve` must raise the upstream multiplier from
2 to 3, a non-integral ratio of 3/2. -/
def quotFactory : Factory := ⟨[up4Stream, down4Stream]⟩

section QuotLemmas

theorem quotRecipe_inflowA_opt : quotRecipe.optimal_inflow_opt prodA = some ⟨3, 4⟩ := by
  simp only [Recipe.optimal_inflow_opt, quotRecipe]
  norm_num [List.filterMap_cons, Rate.nsmul, Rate.add, Rate.ZERO]

theorem quot_up_rate (f : ℕ) : rate_of f quotFactory 0 prodA = some ⟨2, 4⟩ := by
  have hup : efficiency f quotFactory 0 = 1 := efficiency_leaf f quotFactory 0 rfl
  unfold rate_of
  simp only [rate_of_aux]
  rw [show quotFactory.get 0 = up4Stream from rfl]
  rw [show up4Stream.recipe = upRecipe from rfl, upRecipe_outflowA, hup]
  norm_num [Rate.ZERO, Rate.escale, Rate.nsmul, up4Stream]

theorem quot_scan (f : ℕ) :
    scanStep (solve f) (rate_of (f + 1)) 1 (quotFactory, []) ((prodA, 0), ⟨prodA, 3⟩) =
      (quotFactory, [(0, 3)]) := by
  simp only [scanStep, scanRec, scanPush,
    show (quotFactory.get 1).recipe = quotRecipe from rfl, quotRecipe_inflowA_opt,
    show (quotFactory.get 0).recipe = upRecipe from rfl, upRecipe_outflowA_opt,
    quot_up_rate (f + 1),
    show (quotFactory.get 1).mult = 1 from rfl,
    show (quotFactory.get 0).mult = 2 from rfl,
    solve_leaf f quotFactory 0 rfl]
  norm_num [Rate.nsmul, Rate.val, natCeil_three_sub_eps]

theorem quot_efficiency (f : ℕ) : efficiency (f + 1) quotFactory 1 = 2 / 3 := by
  simp only [efficiency]
  rw [show quotFactory.get 1 = down4Stream from rfl]
  rw [show down4Stream.inputs = [(prodA, 0)] from rfl,
    show down4Stream.recipe = quotRecipe from rfl,
    show down4Stream.mult = 1 from rfl,
    show quotRecipe.inputs = [⟨prodA, 3⟩] from rfl]
  simp only [List.map_cons, List.map_nil]
  have hsup : inputs_rate_of_aux (efficiency f) quotFactory [(prodA, 0)] prodA = ⟨2, 4⟩ := by
    simp only [inputs_rate_of_aux]
    rw [List.filterMap_cons]
    norm_num [show rate_of_aux (efficiency f) quotFactory 0 prodA = some ⟨2, 4⟩ from
      quot_up_rate f, Rate.add, Rate.ZERO]
  have hinfl : quotRecipe.optimal_inflow_of prodA = ⟨3, 4⟩ := by
    unfold Recipe.optimal_inflow_of quotRecipe
    norm_num [List.filterMap_cons, Rate.nsmul, Rate.add, Rate.ZERO]
  rw [hsup, hinfl]
  norm_num [reduceEff, capOne, fdiv, Rate.val, Rate.nsmul]

theorem quot_solve (f : ℕ) :
    solve (f + 1) quotFactory 1 = applyChange quotFactory 0 3 := by
  have hcond : efficiency (f + 1) quotFactory 1 < 1 := by
    rw [quot_efficiency f]
    norm_num
  simp only [solve, hcond, if_true]
  simp only [show quotFactory.get 1 = down4Stream from rfl]
  simp only [show down4Stream.inputs.flatMap
      (fun inp => down4Stream.recipe.inputs.map (fun ingr => (inp, ingr)))
      = [((prodA, 0), (⟨prodA, 3⟩ : RecipePart))] from rfl]
  simp only [List.foldl_cons, List.foldl_nil]
  rw [quot_scan f]
  simp only [solveApply, List.foldl_cons, List.foldl_nil, applyStep]
  exact solve_leaf f (applyChange quotFactory 0 3) 0 rfl

end QuotLemmas

/-! ### try_produce characterization -/

section ProduceLemmas

theorem outOk_elem (s : Stream) (part : RecipePart) :
    ((match lookupB s.buffers part.product with
      | some b => decide (b.current + part.amount * s.mult ≤ b.max)
      | none => false) = true)
      ↔ ∃ b, lookupB s.buffers part.product = some b
          ∧ b.current + part.amount * s.mult ≤ b.max := by
  cases h : lookupB s.buffers part.product with
  | none => simp
  | some b => simp

end ProduceLemmas

/-! ### State-threaded query renderings (for the frame claim) -/

/-- State-threaded rendering of `Stream::rate_of`: the factory is passed
through every read the Rust code performs, so its second component records
the state after the call. -/
def rate_of_auxS (effS : Factory → ℕ → ℚ × Factory) (fa : Factory) (j : ℕ) (p : Product) :
    Option Rate × Factory :=
  if (fa.get j).recipe.optimal_outflow_of p = Rate.ZERO then (none, fa)
  else
    (some ((((fa.get j).recipe.optimal_outflow_of p).escale (effS fa j).1).nsmul
      (((effS fa j).2.get j).mult)), (effS fa j).2)

/-- State-threaded rendering of `InputStreams::rate_of`. -/
def inputs_rate_ofS (rS : Factory → ℕ → Product → Option Rate × Factory) (fa : Factory)
    (inps : List (Product × ℕ)) (p : Product) : Rate × Factory :=
  inps.foldl (fun st pr =>
    match rS st.2 pr.2 p with
    | (some r, fa') => (st.1.add r, fa')
    | (none, fa') => (st.1, fa')) (Rate.ZERO, fa)

/-- State-threaded rendering of `Stream::efficiency`. -/
def efficiencyS : ℕ → Factory → ℕ → ℚ × Factory
  | 0, fa, _ => (1, fa)
  | f + 1, fa, i =>
    if (fa.get i).inputs = [] then (1, fa)
    else
      let res := (fa.get i).recipe.inputs.foldl (fun st ingr =>
        let r := inputs_rate_ofS (rate_of_auxS (efficiencyS f)) st.2 ((st.2.get i).inputs) ingr.product
        (st.1 ++ [fdiv r.1.val ((((r.2.get i).recipe.optimal_inflow_of ingr.product).nsmul
          ((r.2.get i).mult)).val)], r.2)) ([], fa)
      (reduceEff res.1, res.2)

def rate_ofS (fuel : ℕ) (fa : Factory) (j : ℕ) (p : Product) : Option Rate × Factory :=
  rate_of_auxS (efficiencyS fuel) fa j p

section FrameLemmas

theorem rate_of_auxS_frame (effS : Factory → ℕ → ℚ × Factory)
    (h : ∀ fa j, (effS fa j).2 = fa) (fa : Factory) (j : ℕ) (p : Product) :
    (rate_of_auxS effS fa j p).2 = fa := by
  unfold rate_of_auxS
  split
  · rfl
  · exact h fa j

theorem inputs_rate_ofS_frame (rS : Factory → ℕ → Product → Option Rate × Factory)
    (h : ∀ fa j p, (rS fa j p).2 = fa) (fa : Factory) (inps : List (Product × ℕ)) (p : Product) :
    (inputs_rate_ofS rS fa inps p).2 = fa := by
  unfold inputs_rate_ofS
  apply List.foldlRecOn (motive := fun st => st.2 = fa) inps _ (Rate.ZERO, fa) rfl
  intro st hst pr hmem
  have hf : (rS st.2 pr.2 p).2 = st.2 := h st.2 pr.2 p
  rcases hr : rS st.2 pr.2 p with ⟨o, fa'⟩
  rw [hr] at hf
  cases o <;> exact hf.trans hst

theorem efficiencyS_frame : ∀ (fuel : ℕ) (fa : Factory) (i : ℕ), (efficiencyS fuel fa i).2 = fa := by
  intro fuel
  induction fuel with
  | zero => intro fa i; rfl
  | succ f ih =>
    intro fa i
    simp only [efficiencyS]
    split
    · rfl
    · refine List.foldlRecOn (motive := fun (st : List F64 × Factory) => st.2 = fa)
        (fa.get i).recipe.inputs _ ([], fa) rfl ?_
      intro st hst ingr hmem
      show (inputs_rate_ofS (rate_of_auxS (efficiencyS f)) st.2 ((st.2.get i).inputs)
        ingr.product).2 = fa
      rw [inputs_rate_ofS_frame _ (fun fb' j' p' =>
        rate_of_auxS_frame _ (fun fa'' j'' => ih fa'' j'') fb' j' p') st.2]
      exact hst

theorem rate_of_auxS_val (f : ℕ) (heq : ∀ fa i, (efficiencyS f fa i).1 = efficiency f fa i)
    (fa : Factory) (j : ℕ) (p : Product) :
    rate_of_auxS (efficiencyS f) fa j p = (rate_of_aux (efficiency f) fa j p, fa) := by
  by_cases hC : (fa.get j).recipe.optimal_outflow_of p = Rate.ZERO
  · simp [rate_of_auxS, rate_of_aux, hC]
  · simp [rate_of_auxS, rate_of_aux, hC, efficiencyS_frame f fa j, heq fa j]

theorem inputs_rate_ofS_val (f : ℕ) (heq : ∀ fa i, (efficiencyS f fa i).1 = efficiency f fa i)
    (fa : Factory) (inps : List (Product × ℕ)) (p : Product) :
    inputs_rate_ofS (rate_of_auxS (efficiencyS f)) fa inps p
      = (inputs_rate_of_aux (efficiency f) fa inps p, fa) := by
  unfold inputs_rate_ofS inputs_rate_of_aux
  suffices h : ∀ (l : List (Product × ℕ)) (r0 : Rate),
      l.foldl (fun st pr =>
        match rate_of_auxS (efficiencyS f) st.2 pr.2 p with
        | (some r, fa') => (st.1.add r, fa')
        | (none, fa') => (st.1, fa')) (r0, fa)
        = ((l.filterMap (fun pr => rate_of_aux (efficiency f) fa pr.2 p)).foldl Rate.add r0, fa) by
    exact h inps Rate.ZERO
  intro l
  induction l with
  | nil => intro r0; rfl
  | cons pr t ihl =>
    intro r0
    simp only [List.foldl_cons, List.filterMap_cons]
    rw [rate_of_auxS_val f heq fa pr.2 p]
    cases hr : rate_of_aux (efficiency f) fa pr.2 p with
    | none => exact ihl r0
    | some r => exact ihl (r0.add r)

theorem efficiencyS_fst : ∀ (fuel : ℕ) (fa : Factory) (i : ℕ),
    (efficiencyS fuel fa i).1 = efficiency fuel fa i := by
  intro fuel
  induction fuel with
  | zero => intro fa i; rfl
  | succ f ih =>
    intro fa i
    simp only [efficiencyS, efficiency]
    by_cases hin : (fa.get i).inputs = []
    · simp [hin]
    · simp only [hin, if_false]
      suffices h : ∀ (l : List RecipePart) (acc : List F64),
          l.foldl (fun st ingr =>
            let r := inputs_rate_ofS (rate_of_auxS (efficiencyS f)) st.2 ((st.2.get i).inputs) ingr.product
            (st.1 ++ [fdiv r.1.val ((((r.2.get i).recipe.optimal_inflow_of ingr.product).nsmul
              ((r.2.get i).mult)).val)], r.2)) (acc, fa)
            = (acc ++ l.map (fun ingr =>
                fdiv (inputs_rate_of_aux (efficiency f) fa (fa.get i).inputs ingr.product).val
                  (((fa.get i).recipe.optimal_inflow_of ingr.product).nsmul (fa.get i).mult).val), fa) by
        rw [h (fa.get i).recipe.inputs []]
        simp
      intro l
      induction l with
      | nil => intro acc; simp
      | cons ingr t ihl =>
        intro acc
        simp only [List.foldl_cons, List.map_cons]
        rw [show (inputs_rate_ofS (rate_of_auxS (efficiencyS f)) fa ((fa.get i).inputs)
            ingr.product).1 = inputs_rate_of_aux (efficiency f) fa ((fa.get i).inputs)
            ingr.product from by rw [inputs_rate_ofS_val f ih]]
        rw [inputs_rate_ofS_frame _ (fun fb' j' p' =>
          rate_of_auxS_frame _ (fun fa'' j'' => efficiencyS_frame f fa'' j'') fb' j' p') fa]
        rw [ihl (acc ++ [fdiv (inputs_rate_of_aux (efficiency f) fa (fa.get i).inputs ingr.product).val
          (((fa.get i).recipe.optimal_inflow_of ingr.product).nsmul (fa.get i).mult).val])]
        simp

end FrameLemmas

/-! ### Monotonicity of solve -/

section SolveMono

/-- Pointwise multiplier dominance between factories. -/
def MultLe (fa fb : Factory) : Prop := ∀ j, (fa.get j).mult ≤ (fb.get j).mult

/-- Same arena length and the same recipes everywhere. -/
def SameShape (fa fb : Factory) : Prop :=
  fb.streams.length = fa.streams.length ∧ ∀ j, (fb.get j).recipe = (fa.get j).recipe

theorem sameShape_refl (fa : Factory) : SameShape fa fa := ⟨rfl, fun _ => rfl⟩

theorem sameShape_trans {fa fb fc : Factory} (h1 : SameShape fa fb) (h2 : SameShape fb fc) :
    SameShape fa fc :=
  ⟨h2.1.trans h1.1, fun j => (h2.2 j).trans (h1.2 j)⟩

theorem multLe_refl (fa : Factory) : MultLe fa fa := fun _ => le_refl _

theorem wf_of_sameShape {fa fb : Factory} (hw : wfFactory fa) (hs : SameShape fa fb) :
    wfFactory fb := by
  intro j hj
  rw [hs.2 j]
  exact hw.get j

theorem applyChange_oob {fa : Factory} {u m : ℕ} (h : ¬ u < fa.streams.length) :
    applyChange fa u m = fa := by
  simp only [applyChange]
  exact Factory.set_oob (Nat.le_of_not_lt h)

theorem applyChange_mult_self {fa : Factory} {u m : ℕ} (h : u < fa.streams.length) :
    ((applyChange fa u m).get u).mult = m := by
  simp only [applyChange]
  rw [Factory.get_set_self h]

theorem applyChange_mult_ne {fa : Factory} {u m j : ℕ} (hj : j ≠ u) :
    ((applyChange fa u m).get j).mult = (fa.get j).mult := by
  simp only [applyChange]
  rw [Factory.get_set_ne hj]

theorem applyChange_sameShape (fa : Factory) (u m : ℕ) : SameShape fa (applyChange fa u m) := by
  by_cases h : u < fa.streams.length
  · refine ⟨by simp [applyChange, Factory.length_set], ?_⟩
    intro j
    by_cases hj : j = u
    · subst hj
      simp only [applyChange]
      rw [Factory.get_set_self h]
    · simp only [applyChange]
      rw [Factory.get_set_ne hj]
  · rw [applyChange_oob h]
    exact sameShape_refl fa

/-- The recorded multiplier value never falls below the upstream stream's
multiplier at recording time: chained shortfall (`rate < optimal`) makes
`mult / efficiency` strictly larger than `mult` and the `EPSILON` nudge is
below one. -/
theorem push_value_ge {fa : Factory} (hw : wfFactory fa) {u : ℕ} {p : Product} {r optimal : Rate}
    (hout : (fa.get u).recipe.optimal_outflow_opt p = some r)
    (hlt : (r.nsmul (fa.get u).mult).val < optimal.val) :
    (fa.get u).mult ≤ natCeil (((fa.get u).mult : ℚ) *
      (1 / ((r.nsmul (fa.get u).mult).val / optimal.val)) - epsF) := by
  have hrv : 0 < r.val := optimal_outflow_opt_val_pos (hw.get u) hout
  rw [Rate.val_nsmul] at hlt ⊢
  rcases Nat.eq_zero_or_pos (fa.get u).mult with h0 | hpos
  · rw [h0]
    exact Nat.zero_le _
  · set old := (fa.get u).mult with hold
    have hold1 : (1 : ℚ) ≤ (old : ℚ) := by exact_mod_cast hpos
    have holdpos : (0 : ℚ) < (old : ℚ) := by linarith
    have hopt : 0 < optimal.val := lt_of_le_of_lt (by positivity) hlt
    have heffpos : 0 < r.val * (old : ℚ) / optimal.val := by positivity
    have heff1 : r.val * (old : ℚ) / optimal.val < 1 := (div_lt_one hopt).mpr hlt
    have hgt : 1 < 1 / (r.val * (old : ℚ) / optimal.val) := one_lt_one_div heffpos heff1
    have hx : (old : ℚ) < (old : ℚ) * (1 / (r.val * (old : ℚ) / optimal.val)) := by
      nlinarith
    have heps : epsF < 1 := by norm_num [epsF]
    unfold natCeil
    have hceil : (old : ℤ) ≤ ⌈(old : ℚ) * (1 / (r.val * (old : ℚ) / optimal.val)) - epsF⌉ := by
      have hlt1 : ((old : ℤ) - 1 : ℤ) < ⌈(old : ℚ) * (1 / (r.val * (old : ℚ) / optimal.val)) - epsF⌉ := by
        rw [Int.lt_ceil]
        push_cast
        linarith
      omega
    exact (Int.le_toNat (le_trans (by positivity) hceil)).mpr hceil


theorem scanPush_bound {fa fb : Factory} (hw : wfFactory fb) (hml : MultLe fa fb)
    {chs : List (ℕ × ℕ)} (hch : ∀ ch ∈ chs, (fa.get ch.1).mult ≤ ch.2)
    (u : ℕ) (p : Product) (optimal : Rate) :
    ∀ ch ∈ scanPush fb u p optimal chs, (fa.get ch.1).mult ≤ ch.2 := by
  intro ch hchm
  unfold scanPush at hchm
  split at hchm
  · exact hch ch hchm
  · rename_i r hout
    split at hchm
    · rename_i hlt
      rcases List.mem_append.mp hchm with hin | hin
      · exact hch ch hin
      · rcases List.mem_singleton.mp hin with rfl
        exact le_trans (hml u) (push_value_ge hw hout hlt)
    · exact hch ch hchm

theorem scanRec_cases (rec : Factory → ℕ → Factory) (rateF : Factory → ℕ → Product → Option Rate)
    (fb : Factory) (u : ℕ) (p : Product) (optimal : Rate) :
    scanRec rec rateF fb u p optimal = fb ∨ scanRec rec rateF fb u p optimal = rec fb u := by
  unfold scanRec
  split
  · split
    · exact Or.inr rfl
    · exact Or.inl rfl
  · exact Or.inl rfl

theorem solveApply_mono (f : ℕ) {fa : Factory} (hw : wfFactory fa)
    (ih : ∀ fb, wfFactory fb → ∀ i, SameShape fb (solve f fb i) ∧ MultLe fb (solve f fb i)) :
    ∀ (chs : List (ℕ × ℕ)) (fb : Factory), SameShape fa fb → MultLe fa fb →
      (∀ ch ∈ chs, (fa.get ch.1).mult ≤ ch.2) →
      SameShape fa (chs.foldl (applyStep (solve f)) fb)
        ∧ MultLe fa (chs.foldl (applyStep (solve f)) fb) := by
  intro chs
  induction chs with
  | nil => exact fun fb hsh hml _ => ⟨hsh, hml⟩
  | cons ch t ihc =>
    intro fb hsh hml hch
    simp only [List.foldl_cons, applyStep]
    have hshA : SameShape fa (applyChange fb ch.1 ch.2) :=
      sameShape_trans hsh (applyChange_sameShape fb ch.1 ch.2)
    have hmlA : MultLe fa (applyChange fb ch.1 ch.2) := by
      intro j
      by_cases hj : j = ch.1
      · subst hj
        by_cases hb : ch.1 < fb.streams.length
        · rw [applyChange_mult_self hb]
          exact hch ch (List.mem_cons_self ch t)
        · rw [applyChange_oob hb]
          exact hml ch.1
      · rw [applyChange_mult_ne hj]
        exact hml j
    have hwA : wfFactory (applyChange fb ch.1 ch.2) := wf_of_sameShape hw hshA
    obtain ⟨hsh2, hml2⟩ := ih (applyChange fb ch.1 ch.2) hwA ch.1
    exact ihc (solve f (applyChange fb ch.1 ch.2) ch.1)
      (sameShape_trans hshA hsh2)
      (fun j => le_trans (hmlA j) (hml2 j))
      (fun c hc => hch c (List.mem_cons_of_mem ch hc))

theorem solve_shape_mono : ∀ (fuel : ℕ) (fa : Factory), wfFactory fa → ∀ i,
    SameShape fa (solve fuel fa i) ∧ MultLe fa (solve fuel fa i) := by
  intro fuel
  induction fuel with
  | zero => exact fun fa hw i => ⟨sameShape_refl fa, multLe_refl fa⟩
  | succ f ih =>
    intro fa hw i
    simp only [solve]
    by_cases hc : efficiency (f + 1) fa i < 1
    · rw [if_pos hc]
      have hscan : (fun (st : Factory × List (ℕ × ℕ)) => SameShape fa st.1 ∧ MultLe fa st.1
            ∧ ∀ ch ∈ st.2, (fa.get ch.1).mult ≤ ch.2)
          (((fa.get i).inputs.flatMap (fun inp =>
              (fa.get i).recipe.inputs.map (fun ingr => (inp, ingr)))).foldl
            (scanStep (solve f) (rate_of (f + 1)) i) (fa, [])) := by
        apply List.foldlRecOn
          (motive := fun (st : Factory × List (ℕ × ℕ)) => SameShape fa st.1 ∧ MultLe fa st.1
            ∧ ∀ ch ∈ st.2, (fa.get ch.1).mult ≤ ch.2)
          _ _ (fa, []) ⟨sameShape_refl fa, multLe_refl fa, by simp⟩
        intro st hst pair hmem
        obtain ⟨hsh, hml, hch⟩ := hst
        have hwf2 : wfFactory st.1 := wf_of_sameShape hw hsh
        simp only [scanStep]
        cases hopt : (st.1.get i).recipe.optimal_inflow_opt pair.2.product with
        | none => exact ⟨hsh, hml, hch⟩
        | some opt =>
          refine ⟨?_, ?_, ?_⟩
          · show SameShape fa (scanRec (solve f) (rate_of (f + 1)) st.1 pair.1.2 pair.2.product
              (opt.nsmul (st.1.get i).mult))
            rcases scanRec_cases (solve f) (rate_of (f + 1)) st.1 pair.1.2 pair.2.product
              (opt.nsmul (st.1.get i).mult) with he | he
            · rw [he]
              exact hsh
            · rw [he]
              exact sameShape_trans hsh (ih st.1 hwf2 pair.1.2).1
          · show MultLe fa (scanRec (solve f) (rate_of (f + 1)) st.1 pair.1.2 pair.2.product
              (opt.nsmul (st.1.get i).mult))
            rcases scanRec_cases (solve f) (rate_of (f + 1)) st.1 pair.1.2 pair.2.product
              (opt.nsmul (st.1.get i).mult) with he | he
            · rw [he]
              exact hml
            · rw [he]
              exact fun j => le_trans (hml j) ((ih st.1 hwf2 pair.1.2).2 j)
          · exact scanPush_bound hwf2 hml hch pair.1.2 pair.2.product
              (opt.nsmul (st.1.get i).mult)
      obtain ⟨hsh1, hml1, hch1⟩ := hscan
      simp only [solveApply]
      exact solveApply_mono f hw ih _ _ hsh1 hml1 hch1
    · rw [if_neg hc]
      exact ⟨sameShape_refl fa, multLe_refl fa⟩

end SolveMono

section Claims

/-- C3: for every stream of a factory satisfying the spec's data-model
invariants, `0 ≤ efficiency ≤ 1`, and a stream whose inputs list is empty has
efficiency exactly `1`. -/
theorem c3_efficiency_bounds (fuel : ℕ) (fa : Factory) (i : ℕ) (hw : wfFactory fa) :
    0 ≤ efficiency fuel fa i ∧ efficiency fuel fa i ≤ 1 ∧
      ((fa.get i).inputs = [] → efficiency fuel fa i = 1) :=
  ⟨(efficiency_bounds fuel fa hw i).1, (efficiency_bounds fuel fa hw i).2,
    fun h => efficiency_leaf fuel fa i h⟩

/-- Witness for C3 at the concrete scenario factory. -/
theorem c3_efficiency_bounds_witness :
    wfFactory scenarioFactory ∧ (0 ≤ efficiency 2 scenarioFactory 0 ∧
      efficiency 2 scenarioFactory 0 ≤ 1 ∧
      ((scenarioFactory.get 0).inputs = [] → efficiency 2 scenarioFactory 0 = 1)) :=
  ⟨by decide, c3_efficiency_bounds 2 scenarioFactory 0 (by decide)⟩

/-- C6: an efficiency component whose optimal demand is the zero rate is
excluded from the minimum (no division by zero, not counted as zero): the
code's IEEE reduction (`NaN`/`∞` fall out of `f64::min`) coincides with the
spec's explicitly filtered minimum at every fuel, stream and factory. -/
theorem c6_zero_demand_excluded (fuel : ℕ) (fa : Factory) (i : ℕ) :
    efficiency fuel fa i = efficiencyFromSpec fuel fa i :=
  efficiency_eq_spec fuel fa i

/-- C8: `rate_of` returns `outflow * efficiency * mult` exactly when the
recipe's optimal outflow differs from the zero rate, and `None` otherwise. -/
theorem c8_rate_of (fuel : ℕ) (fa : Factory) (j : ℕ) (p : Product) :
    rate_of fuel fa j p =
      if (fa.get j).recipe.optimal_outflow_of p = Rate.ZERO then none
      else some ((((fa.get j).recipe.optimal_outflow_of p).escale (efficiency fuel fa j)).nsmul
        (fa.get j).mult) := rfl

/-- C2: in the undersupplied scenario the derived stream's efficiency is
`0.5`; `solve` raises the upstream multiplier to exactly `2` and leaves the
derived stream's own multiplier at `1` (at every recursion fuel). -/
theorem c2_scenario (f : ℕ) :
    efficiency (f + 1) scenarioFactory 1 = 1 / 2 ∧
      ((solve (f + 1) scenarioFactory 1).get 0).mult = 2 ∧
      ((solve (f + 1) scenarioFactory 1).get 1).mult = 1 := by
  refine ⟨scenario_efficiency f, ?_, ?_⟩ <;> rw [scenario_solve f] <;> rfl

/-- C4 counterexample: `solve` moves the upstream stream from `mult = 2` to
`mult = 3` but leaves its buffer `max` at 8, whereas exact-ratio scaling
(`8 * 3 / 2 = 12`) would give 12; the quotient `3 / 2` floors to 1. -/
theorem c4_counterexample :
    (quotFactory.get 0).mult = 2 ∧
    lookupB (quotFactory.get 0).buffers prodA = some ⟨0, 8⟩ ∧
    ((solve 2 quotFactory 1).get 0).mult = 3 ∧
    lookupB ((solve 2 quotFactory 1).get 0).buffers prodA = some ⟨0, 8⟩ ∧
    (8 : ℚ) ≠ (8 : ℚ) * 3 / 2 := by
  refine ⟨rfl, rfl, ?_, ?_, by norm_num⟩ <;>
    rw [show solve 2 quotFactory 1 = applyChange quotFactory 0 3 from quot_solve 1] <;> rfl

/-- C4 amended: when `solve` applies a pending change moving a stream to
`new_mult`, every buffer's `max` is scaled by the integer quotient
`new_mult / old_mult` (`usize` floor division), not the exact rational ratio,
and `mult` is then set to `new_mult`. -/
theorem c4_apply_floor_scaling (fa : Factory) (u m : ℕ) (h : u < fa.streams.length) :
    ((applyChange fa u m).get u).mult = m ∧
    ((applyChange fa u m).get u).buffers
      = (fa.get u).buffers.map
          (fun pb => (pb.1, ⟨pb.2.current, pb.2.max * (m / (fa.get u).mult)⟩)) := by
  simp only [applyChange]
  rw [Factory.get_set_self h]
  exact ⟨rfl, rfl⟩

/-- Witness for the amended C4 on the concrete change applied by `solve`. -/
theorem c4_apply_floor_scaling_witness :
    0 < quotFactory.streams.length ∧ ((applyChange quotFactory 0 3).get 0).mult = 3 :=
  ⟨by decide, (c4_apply_floor_scaling quotFactory 0 3 (by decide)).1⟩

/-- C5: `solve` never decreases a multiplier: after a call on any target
stream of a well-formed factory, every stream's `mult` is at least its value
before the call (at every recursion fuel).  Within a call a stream assigned
two pending changes can move downward between applications, but every
recorded value dominates the multiplier at recording time, which dominates
the pre-call value. -/
theorem c5_solve_never_decreases (fuel : ℕ) (fa : Factory) (i j : ℕ) (hw : wfFactory fa) :
    (fa.get j).mult ≤ ((solve fuel fa i).get j).mult :=
  (solve_shape_mono fuel fa hw i).2 j

/-- Witness for C5 on the concrete scenario factory. -/
theorem c5_solve_never_decreases_witness :
    wfFactory scenarioFactory ∧
      (scenarioFactory.get 0).mult ≤ ((solve 2 scenarioFactory 1).get 0).mult :=
  ⟨by decide, c5_solve_never_decreases 2 scenarioFactory 1 0 (by decide)⟩

/-- C7: `try_produce` succeeds exactly when every input buffer holds
`amount * mult` units and every output buffer has that much headroom; on
success the buffers receive exactly the decrement/increment update; otherwise
it returns `None` leaving the stream unchanged, and the simulator's cycle
loop abandons the remaining cycles of the call. -/
theorem c7_try_produce (s : Stream) (fa : Factory) (i n : ℕ) :
    ((try_produce s).isSome ↔
      ((∀ part ∈ s.recipe.inputs,
          part.amount * s.mult ≤ ((lookupB s.buffers part.product).getD ⟨0, 0⟩).current)
        ∧ (∀ part ∈ s.recipe.outputs, ∃ b, lookupB s.buffers part.product = some b
            ∧ b.current + part.amount * s.mult ≤ b.max)))
    ∧ (try_produce s = some { s with buffers := produceUpdate s } ∨ try_produce s = none)
    ∧ (try_produce ((fillPhase fa i).get i) = none → runCycles (n + 1) fa i = fillPhase fa i) := by
  refine ⟨?_, ?_, ?_⟩
  · rw [show (try_produce s).isSome = (inOk s && outOk s) from by
      unfold try_produce
      by_cases h : inOk s && outOk s <;> simp [h]]
    simp only [Bool.and_eq_true, inOk, outOk, List.all_eq_true, decide_eq_true_eq]
    constructor
    · rintro ⟨h1, h2⟩
      exact ⟨h1, fun part hp => (outOk_elem s part).mp (h2 part hp)⟩
    · rintro ⟨h1, h2⟩
      exact ⟨h1, fun part hp => (outOk_elem s part).mpr (h2 part hp)⟩
  · unfold try_produce
    by_cases h : inOk s && outOk s <;> simp [h]
  · intro h
    simp only [runCycles, h]

/-- Witness for C7: the fresh upstream leaf can produce (its conditions hold),
and with a full output buffer the cycle loop stops after the failed attempt. -/
theorem c7_try_produce_witness :
    ((∀ part ∈ upStream.recipe.inputs,
        part.amount * upStream.mult ≤ ((lookupB upStream.buffers part.product).getD ⟨0, 0⟩).current)
      ∧ (∀ part ∈ upStream.recipe.outputs, ∃ b, lookupB upStream.buffers part.product = some b
          ∧ b.current + part.amount * upStream.mult ≤ b.max))
    ∧ runCycles (0 + 1) (leafState prodA 1 4 8 4) 0 = fillPhase (leafState prodA 1 4 8 4) 0 :=
  ⟨(c7_try_produce upStream (leafState prodA 1 4 8 4) 0 0).1.mp (by decide),
   (c7_try_produce upStream (leafState prodA 1 4 8 4) 0 0).2.2 (by decide)⟩

/-- C10: the efficiency and realized-rate queries are pure: their
state-threaded renderings return the factory unchanged, and their values
agree with the plain (stateless) definitions. -/
theorem c10_queries_pure (fuel : ℕ) (fa : Factory) (i j : ℕ) (p : Product) :
    (efficiencyS fuel fa i).2 = fa ∧ (rate_ofS fuel fa j p).2 = fa ∧
    (efficiencyS fuel fa i).1 = efficiency fuel fa i ∧
    (rate_ofS fuel fa j p).1 = rate_of fuel fa j p :=
  ⟨efficiencyS_frame fuel fa i,
   rate_of_auxS_frame _ (efficiencyS_frame fuel) fa j p,
   efficiencyS_fst fuel fa i,
   by rw [show rate_ofS fuel fa j p = (rate_of_aux (efficiency fuel) fa j p, fa) from
     rate_of_auxS_val fuel (efficiencyS_fst fuel) fa j p]; rfl⟩

/-- C9 counterexample: the cycle decomposition does not compose across calls.
With period 4 from a fresh countdown, `tick(3)` then `tick(4)` elapses
`0 + 4 = 4` cycles (the persisted countdown of 1 is consumed repeatedly,
since the loop never resets it to the period), while a single `tick(7)`
elapses only 1 cycle. -/
theorem c9_counterexample :
    ¬ ((streamAdvance 4 none 3).1 +
        (streamAdvance 4 (some (streamAdvance 4 none 3).2) 4).1 =
      (streamAdvance 4 none (3 + 4)).1) := by decide

/-- C9 amended: tick calls compose when each call's tick count is a positive
multiple of the recipe period and the stream starts from a fresh (unset)
countdown: the elapsed cycle counts add up and the persisted countdowns
agree. -/
theorem c9_tick_compose (p k1 k2 : ℕ) (hp : 1 ≤ p) (h1 : 1 ≤ k1) (h2 : 1 ≤ k2) :
    (streamAdvance p none (k1 * p)).1 +
        (streamAdvance p (some (streamAdvance p none (k1 * p)).2) (k2 * p)).1 =
      (streamAdvance p none ((k1 + k2) * p)).1 ∧
    (streamAdvance p (some (streamAdvance p none (k1 * p)).2) (k2 * p)).2 =
      (streamAdvance p none ((k1 + k2) * p)).2 := by
  rw [streamAdvance_mult hp h1 none (Or.inl rfl)]
  rw [show ((k1, p) : ℕ × ℕ).2 = p from rfl]
  rw [streamAdvance_mult hp h2 (some p) (Or.inr rfl)]
  rw [streamAdvance_mult hp (by omega : 1 ≤ k1 + k2) none (Or.inl rfl)]
  exact ⟨rfl, rfl⟩

/-- C1: on a freshly constructed leaf stream with a single output part,
`tick(k * period)` raises the sole output buffer's `current` by `k` cycles'
yield (`k * amount`, since `mult = 1`), capped by the buffer's headroom
(`max - current = amount * DEFAULT_BUF_MULT`); `k = 1` gives exactly one
cycle's yield, `amount`. -/
theorem c1_tick_leaf_cycles (P : Product) (a p k : ℕ) (ha : 1 ≤ a) (hp : 1 ≤ p) (hk : 1 ≤ k) :
    lookupB ((((leafFactory P a p).tick (k * p)).get 0).buffers) P
      = some ⟨min (k * a) (a * DEFAULT_BUF_MULT), a * DEFAULT_BUF_MULT⟩ := by
  rw [tick_leafFactory P a p k ha hp hk]
  have hmin : min k DEFAULT_BUF_MULT * a = min (k * a) (a * DEFAULT_BUF_MULT) := by
    rcases le_total k DEFAULT_BUF_MULT with h | h
    · rw [min_eq_left h, min_eq_left (by nlinarith)]
    · rw [min_eq_right h, min_eq_right (by nlinarith)]
      ring
  rw [hmin]
  simp [leafState, Factory.get, lookupB]

/-- Witness for C1: amount 1, period 4, three periods fill three units;
twelve periods cap at the buffer max of 8. -/
theorem c1_tick_leaf_cycles_witness :
    (1 ≤ 1 ∧ 1 ≤ 4 ∧ 1 ≤ 3) ∧
      lookupB ((((leafFactory prodA 1 4).tick (3 * 4)).get 0).buffers) prodA
        = some ⟨min (3 * 1) (1 * DEFAULT_BUF_MULT), 1 * DEFAULT_BUF_MULT⟩ :=
  ⟨⟨by decide, by decide, by decide⟩,
    c1_tick_leaf_cycles prodA 1 4 3 (by decide) (by decide) (by decide)⟩

/-- Witness for the amended C9 at period 4, one period then two periods. -/
theorem c9_tick_compose_witness :
    (1 ≤ 4 ∧ 1 ≤ 1 ∧ 1 ≤ 2) ∧
      (streamAdvance 4 none (1 * 4)).1 +
          (streamAdvance 4 (some (streamAdvance 4 none (1 * 4)).2) (2 * 4)).1 =
        (streamAdvance 4 none ((1 + 2) * 4)).1 :=
  ⟨⟨by decide, by decide, by decide⟩,
    (c9_tick_compose 4 1 2 (by decide) (by decide) (by decide)).1⟩

end Claims

end Fac
